import Mathlib

/-!
# Esp32-Voltage-Graph: ring-buffer sampling and aggregation engine

A shallow embedding of the sampling core of `src/main.cpp`:
`getRingBufferIndex`, `getLatestIndices`, `sampleVoltages`, the two global
arrays `voltageData` / `avgVoltage` and the cursor `currentSample`.

Modelling conventions.

* C++ `int` values are `Int`; `/` and `%` on `int` are the truncating
  `Int.tdiv` and `Int.tmod`.  Every intermediate value of the reachable
  program is far inside the 32-bit range; where a theorem quantifies over
  arbitrary arguments the 32-bit range is an explicit hypothesis.
* `float` is IEEE 754 binary32 with round-to-nearest, ties-to-even (`F32`):
  a finite value is the exact rational it denotes, the infinities and NaN are
  one absorbing value `nonFinite`; `+` and `/` round the exact result
  (`roundF32`), with gradual underflow and overflow to `nonFinite`.  The two
  zeros are not distinguished.
* A global array `T a[n]` is a lookup function `Int → T` together with its
  declared length `n`; every read and every write is checked against the
  length and yields `none` when the index is outside `[0, n)`.
* The hardware reads (`readAverageVoltage` on the four pins, `time(&now)`)
  are the per-tick input `Reading`.
-/

namespace VoltageGraph

/-! ## Constants (main.cpp lines 15-19) -/

/-- Source constant `sampleIntervalSec` (line 15). -/
def sampleIntervalSec : Int := 10

/-- Source constant `averageIntervalMin` (line 16). -/
def averageIntervalMin : Int := 10

/-- Source constant `totalHours` (line 17). -/
def totalHours : Int := 12

/-- Source constant `samplesPerAvg = averageIntervalMin * 60 / sampleIntervalSec` (line 18). -/
def samplesPerAvg : Int := Int.tdiv (averageIntervalMin * 60) sampleIntervalSec

/-- Source constant `totalSamples = totalHours * 60 * 60 / sampleIntervalSec` (line 19). -/
def totalSamples : Int := Int.tdiv (totalHours * 60 * 60) sampleIntervalSec

/-! ## Binary32 arithmetic (the C++ type `float`) -/

/-- A value of type `float`: a finite binary32 value, given by the rational
it denotes, or a non-finite one (an infinity or NaN). -/
inductive F32 where
  | finite (value : ℚ)
  | nonFinite

/-- Rounding of a rational to the nearest integer, ties to the even one. -/
def roundHalfEven (x : ℚ) : Int :=
  if x - (⌊x⌋ : ℚ) < 1 / 2 then ⌊x⌋
  else if 1 / 2 < x - (⌊x⌋ : ℚ) then ⌊x⌋ + 1
  else if ⌊x⌋ % 2 = 0 then ⌊x⌋ else ⌊x⌋ + 1

/-- The biased binade `k` of a magnitude `a`, searched downwards from `n`: the
largest `k ≤ n` with `2 ^ (k - 126) ≤ a`, or `0` when there is none (then `a`
is in the subnormal range, which shares the spacing of binade `-126`). -/
def binade (a : ℚ) : Nat → Nat
  | 0 => 0
  | n + 1 => if (2 : ℚ) ^ (n + 1) / 2 ^ 126 ≤ a then n + 1 else binade a n

/-- The spacing of binary32 values around `q`: `2 ^ (e - 23)` for the exponent
`e = binade - 126` in `[-126, 127]`. -/
def ulp (q : ℚ) : ℚ := 2 ^ binade |q| 253 / 2 ^ 149

/-- The binary32 value an exact result `q` is rounded to: the nearest multiple
of the spacing, ties to even; a result of magnitude `2 ^ 128` or more
overflows to an infinity. -/
def roundF32 (q : ℚ) : F32 :=
  if |(roundHalfEven (q / ulp q) : ℚ) * ulp q| < 2 ^ 128
  then F32.finite ((roundHalfEven (q / ulp q) : ℚ) * ulp q)
  else F32.nonFinite

/-- The C++ `a + b` on `float`. -/
def F32.add : F32 → F32 → F32
  | F32.finite x, F32.finite y => roundF32 (x + y)
  | _, _ => F32.nonFinite

/-- The C++ `a / n` for a `float` `a` and an `int` `n`: `n` is converted to
`float` and the division is a `float` division. -/
def F32.divInt (a : F32) (n : Int) : F32 :=
  match a, roundF32 (n : ℚ) with
  | F32.finite x, F32.finite d => if d = 0 then F32.nonFinite else roundF32 (x / d)
  | _, _ => F32.nonFinite

/-- The rational a `float` denotes (`0` for a non-finite one). -/
def F32.toRat : F32 → ℚ
  | F32.finite x => x
  | F32.nonFinite => 0

/-- A rational that is a binary32 value: rounding leaves it as it is. -/
def Representable (q : ℚ) : Prop := roundF32 q = F32.finite q

/-! ## Data model (main.cpp lines 24-34) -/

/-- The struct `SampleData` (lines 24-27): four voltages and a timestamp. -/
structure SampleData where
  voltage : Fin 4 → F32
  timestamp : Int

/-- The struct `AvgData` (lines 28-31): four averaged voltages and a timestamp. -/
structure AvgData where
  voltage : Fin 4 → F32
  timestamp : Int

/-- What one call of `sampleVoltages` obtains from the hardware: the four
values returned by `readAverageVoltage(adcPins[ch])` and the value of `now`. -/
structure Reading where
  voltage : Fin 4 → F32
  now : Int

/-- The global mutable state: `voltageData`, `avgVoltage`, `currentSample`
(lines 32-34). -/
structure State where
  voltageData : Int → SampleData
  avgVoltage : Int → AvgData
  currentSample : Int

/-- The state after `setup()` has zeroed both arrays (lines 70-77) and with
`currentSample = 0` (line 34). -/
def initState : State where
  voltageData := fun _ => ⟨fun _ => F32.finite 0, 0⟩
  avgVoltage := fun _ => ⟨fun _ => F32.finite 0, 0⟩
  currentSample := 0

/-! ## Checked array access -/

/-- Read `a[idx]` of an array of declared length `n`. -/
def readAt {α : Type} (n : Int) (a : Int → α) (idx : Int) : Option α :=
  if 0 ≤ idx ∧ idx < n then some (a idx) else none

/-- Write `a[idx] = x` into an array of declared length `n`. -/
def writeAt {α : Type} (n : Int) (a : Int → α) (idx : Int) (x : α) : Option (Int → α) :=
  if 0 ≤ idx ∧ idx < n then some (Function.update a idx x) else none

/-! ## Operations -/

/-- The function `getRingBufferIndex` (lines 135-137):
`(baseIndex + offset + totalSamples) % totalSamples`. -/
def getRingBufferIndex (baseIndex offset : Int) : Int :=
  Int.tmod (baseIndex + offset + totalSamples) totalSamples

/-- The function `getLatestIndices` (lines 140-144); the two reference
parameters are returned as the pair `(latestSampleIdx, latestAvgIdx)`. -/
def getLatestIndices (s : State) : Int × Int :=
  let latestSampleIdx := getRingBufferIndex s.currentSample (-1)
  let latestAvgBaseIndex : Int :=
    if s.currentSample > 0 then Int.tdiv (s.currentSample - 1) samplesPerAvg else -1
  let latestAvgIdx : Int :=
    if latestAvgBaseIndex ≥ 0 then Int.tmod latestAvgBaseIndex (totalHours * 6) else -1
  (latestSampleIdx, latestAvgIdx)

/-- The condition of the `if` at line 156:
`(currentSample + 1) >= samplesPerAvg && (currentSample + 1) % samplesPerAvg == 0`. -/
def windowDue (currentSample : Int) : Bool :=
  decide (currentSample + 1 ≥ samplesPerAvg) && decide (Int.tmod (currentSample + 1) samplesPerAvg = 0)

/-- The local `avgIndex` of line 157: `(currentSample + 1) / samplesPerAvg - 1`. -/
def avgIndex (currentSample : Int) : Int :=
  Int.tdiv (currentSample + 1) samplesPerAvg - 1

/-- The index of the read at line 162 in iteration `i` of the loop of line 159:
`getRingBufferIndex(currentSample + 1 - samplesPerAvg + i, 0)` (line 160). -/
def windowReadIndex (currentSample i : Int) : Int :=
  getRingBufferIndex (currentSample + 1 - samplesPerAvg + i) 0

/-- The value of `sum[0..3]` after the first `k` iterations of the loop of
lines 159-164, started from `sum = {0}` (line 158). -/
def sumLoop (voltageData : Int → SampleData) (currentSample : Int) : Nat → Option (Fin 4 → F32)
  | 0 => some (fun _ => F32.finite 0)
  | k + 1 =>
    match sumLoop voltageData currentSample k with
    | none => none
    | some sum =>
      match readAt totalSamples voltageData (windowReadIndex currentSample k) with
      | none => none
      | some d => some (fun ch => F32.add (sum ch) (d.voltage ch))

/-- The body of the `if` of lines 156-169, run on the raw ring `voltageData`
as it is after the write of lines 150-153: the new contents of `avgVoltage`. -/
def computeAverage (voltageData : Int → SampleData) (avgVoltage : Int → AvgData)
    (currentSample now : Int) : Option (Int → AvgData) :=
  match sumLoop voltageData currentSample samplesPerAvg.toNat with
  | none => none
  | some sum =>
    writeAt (totalHours * 6) avgVoltage (Int.tmod (avgIndex currentSample) (totalHours * 6))
      ⟨fun ch => F32.divInt (sum ch) samplesPerAvg, now⟩

/-- The function `sampleVoltages` (lines 147-172) on the reading `r` of this
tick.  `none` means that an array access was out of bounds. -/
def sampleVoltages (s : State) (r : Reading) : Option State :=
  match writeAt totalSamples s.voltageData s.currentSample ⟨r.voltage, r.now⟩ with
  | none => none
  | some vd =>
    match (if windowDue s.currentSample
           then computeAverage vd s.avgVoltage s.currentSample r.now
           else some s.avgVoltage) with
    | none => none
    | some av => some ⟨vd, av, Int.tmod (s.currentSample + 1) totalSamples⟩

/-- Successive calls of `sampleVoltages`, one per reading, as made by `loop()`
(line 88). -/
def runTicks : State → List Reading → Option State
  | s, [] => some s
  | s, r :: rs =>
    match sampleVoltages s r with
    | none => none
    | some s' => runTicks s' rs

/-- The number of calls among a run of `sampleVoltages` that enter the `if`
of line 156 (an average-window computation). -/
def windowCount : State → List Reading → Nat
  | _, [] => 0
  | s, r :: rs =>
    match sampleVoltages s r with
    | none => 0
    | some s' => (if windowDue s.currentSample then 1 else 0) + windowCount s' rs

/-- The channel-`ch` voltages of a run of readings, in tick order. -/
def channelReadings (rs : List Reading) (ch : Fin 4) : List F32 :=
  rs.map (fun r => r.voltage ch)

/-- The `float` sum of a list of values: added one by one, in order, to `0.0`,
each addition rounded. -/
def f32Sum (xs : List F32) : F32 :=
  xs.foldl F32.add (F32.finite 0)

/-- The `float` mean of a window: the `float` sum divided by `samplesPerAvg`,
the division rounded. -/
def f32Mean (xs : List F32) : F32 :=
  F32.divInt (f32Sum xs) samplesPerAvg

/-- The spec's arithmetic mean of a window: the sum of the values divided by
`samplesPerAvg`, over exact rationals. -/
def exactMean (xs : List F32) : ℚ :=
  (xs.map F32.toRat).sum / (samplesPerAvg : ℚ)

/-- The reading supplied at tick `j + 1` of a tick sequence (ticks are counted
from 1, list positions from 0). -/
def readingAt (rs : List Reading) (j : Nat) : Reading :=
  rs.getD j ⟨fun _ => F32.finite 0, 0⟩

/-- Synthetic ticks: tick `k + 1` reads `k + 1` volts on the first channel and
`0` on the others, at time `10 * k`. -/
def rampReadings (n : Nat) : List Reading :=
  (List.range n).map (fun k : Nat =>
    ⟨![F32.finite ((k : ℚ) + 1), F32.finite 0, F32.finite 0, F32.finite 0], 10 * (k : Int)⟩)

/-- Synthetic ticks: `n - 1` ticks reading `0.0` on every channel, then one
tick reading `1.0` on every channel at time 7. -/
def spikeReadings (n : Nat) : List Reading :=
  List.replicate (n - 1) ⟨fun _ => F32.finite 0, 0⟩ ++ [⟨fun _ => F32.finite 1, 7⟩]

/-- What the state holds after the ticks `rs`, counted from the initial state. -/
structure RunInv (rs : List Reading) (s : State) : Prop where
  cursor : s.currentSample = (rs.length : Int) % 4320
  raw : ∀ j : Nat, j < rs.length → rs.length ≤ j + 4320 →
    s.voltageData ((j : Int) % 4320) = ⟨(readingAt rs j).voltage, (readingAt rs j).now⟩
  avg : ∀ m : Nat, 1 ≤ m → 60 * m ≤ rs.length → rs.length < 60 * m + 4320 →
    s.avgVoltage (((m : Int) - 1) % 72)
      = ⟨fun ch => f32Mean ((List.range 60).map (fun i : Nat =>
            (readingAt rs (60 * (m - 1) + i)).voltage ch)),
          (readingAt rs (60 * m - 1)).now⟩
  fresh : ∀ k : Int, (rs.length : Int) / 60 ≤ k →
    s.avgVoltage k = ⟨fun _ => F32.finite 0, 0⟩

/-! ## Basic facts -/

theorem samplesPerAvg_eq : samplesPerAvg = 60 := by decide

theorem totalSamples_eq : totalSamples = 4320 := by decide

theorem totalHours_eq : totalHours = 12 := by decide

theorem avgCapacity_eq : totalHours * 6 = 72 := by decide

/-! ## Binary32 facts -/

theorem roundHalfEven_intCast (z : Int) : roundHalfEven (z : ℚ) = z := by
  unfold roundHalfEven
  simp

theorem binade_spec (a : ℚ) (n : Nat) :
    binade a n = 0 ∨ (2 : ℚ) ^ binade a n / 2 ^ 126 ≤ a := by
  induction n with
  | zero => left; rfl
  | succ n ih =>
    unfold binade
    split_ifs with h
    · right; exact h
    · exact ih

theorem binade_eq (a : ℚ) (k : Nat) (hlo : (2 : ℚ) ^ k / 2 ^ 126 ≤ a)
    (hhi : a < (2 : ℚ) ^ (k + 1) / 2 ^ 126) : ∀ n, k ≤ n → binade a n = k := by
  intro n
  induction n with
  | zero =>
    intro h
    have hk0 : k = 0 := by omega
    subst hk0
    rfl
  | succ n ih =>
    intro h
    unfold binade
    by_cases hk : k = n + 1
    · subst hk; rw [if_pos hlo]
    · have hkn : k + 1 ≤ n + 1 := by omega
      have hpow : (2 : ℚ) ^ (k + 1) ≤ 2 ^ (n + 1) := pow_le_pow_right₀ (by norm_num) hkn
      have : ¬ (2 : ℚ) ^ (n + 1) / 2 ^ 126 ≤ a := by
        intro hc
        have h2 : (2 : ℚ) ^ (k + 1) / 2 ^ 126 ≤ 2 ^ (n + 1) / 2 ^ 126 :=
          div_le_div_of_nonneg_right hpow (by positivity)
        linarith
      rw [if_neg this]
      exact ih (by omega)

/-- A dyadic rational with a numerator below `2 ^ 24` in magnitude and a
denominator `2 ^ j`, `j ≤ 149`, is a binary32 value. -/
theorem roundF32_exact (N : Int) (j : Nat) (hN : |N| < 2 ^ 24) (hj : j ≤ 149) :
    roundF32 ((N : ℚ) / 2 ^ j) = F32.finite ((N : ℚ) / 2 ^ j) := by
  have hNq : |(N : ℚ)| < 2 ^ 24 := by exact_mod_cast hN
  have habs : |(N : ℚ) / 2 ^ j| = |(N : ℚ)| / 2 ^ j := by
    rw [abs_div, abs_of_pos (by positivity : (0 : ℚ) < 2 ^ j)]
  have hk : binade |(N : ℚ) / 2 ^ j| 253 + j ≤ 149 := by
    rcases binade_spec |(N : ℚ) / 2 ^ j| 253 with h0 | hle
    · omega
    · by_contra hcon
      have h150 : 150 ≤ binade |(N : ℚ) / 2 ^ j| 253 + j := by omega
      rw [habs] at hle
      have h1 : (2 : ℚ) ^ (binade (|(N : ℚ)| / 2 ^ j) 253) * 2 ^ j ≤ |(N : ℚ)| * 2 ^ 126 := by
        rw [div_le_div_iff₀ (by positivity) (by positivity)] at hle
        linarith
      rw [← pow_add] at h1
      have h2 : (2 : ℚ) ^ 150 ≤ 2 ^ (binade (|(N : ℚ)| / 2 ^ j) 253 + j) := by
        rw [habs] at h150
        exact pow_le_pow_right₀ (by norm_num) h150
      have h3 : |(N : ℚ)| * 2 ^ 126 < 2 ^ 24 * 2 ^ 126 := by
        apply mul_lt_mul_of_pos_right hNq (by positivity)
      norm_num at h2 h3 h1
      linarith
  obtain ⟨t, ht⟩ : ∃ t : Nat, binade |(N : ℚ) / 2 ^ j| 253 + j + t = 149 := ⟨_, Nat.add_sub_cancel' hk⟩
  have hdiv : (N : ℚ) / 2 ^ j / ulp ((N : ℚ) / 2 ^ j) = ((N * 2 ^ t : Int) : ℚ) := by
    unfold ulp
    rw [← ht]
    push_cast
    rw [pow_add, pow_add]
    field_simp
    ring
  have hback : ((N * 2 ^ t : Int) : ℚ) * ulp ((N : ℚ) / 2 ^ j) = (N : ℚ) / 2 ^ j := by
    rw [← hdiv]
    have : ulp ((N : ℚ) / 2 ^ j) ≠ 0 := by unfold ulp; positivity
    field_simp
    ring
  unfold roundF32
  rw [hdiv, roundHalfEven_intCast, hback, if_pos]
  rw [habs]
  have : |(N : ℚ)| / 2 ^ j ≤ |(N : ℚ)| := div_le_self (abs_nonneg _) (one_le_pow₀ (by norm_num))
  have : (2 : ℚ) ^ 24 < 2 ^ 128 := by norm_num
  linarith

theorem roundF32_one_sixtieth : roundF32 (1 / 60) = F32.finite (8947849 / 536870912) := by
  have hb : binade |(1 / 60 : ℚ)| 253 = 120 := by
    apply binade_eq _ 120 _ _ 253 (by decide)
    · rw [abs_of_pos (by norm_num)]; norm_num
    · rw [abs_of_pos (by norm_num)]; norm_num
  have hu : ulp (1 / 60) = 1 / 536870912 := by
    unfold ulp; rw [hb]; norm_num
  have hf : ⌊(1 / 60 : ℚ) / (1 / 536870912)⌋ = 8947848 := by
    rw [Int.floor_eq_iff]; norm_num
  have hr : roundHalfEven ((1 / 60 : ℚ) / (1 / 536870912)) = 8947849 := by
    unfold roundHalfEven
    rw [hf]
    norm_num
  unfold roundF32
  rw [hu, hr, if_pos]
  · norm_num
  · rw [abs_of_pos (by norm_num)]; norm_num

theorem roundF32_zero : roundF32 0 = F32.finite 0 := by
  have h := roundF32_exact 0 0 (by decide) (by decide)
  simpa using h

theorem roundF32_one : roundF32 1 = F32.finite 1 := by
  have h := roundF32_exact 1 0 (by decide) (by decide)
  simpa using h

theorem samplesPerAvg_cast : (samplesPerAvg : ℚ) = 60 := by
  rw [samplesPerAvg_eq]; norm_num

/-- Division of a finite `float` by `samplesPerAvg`: 60 converts exactly, and
the quotient is rounded. -/
theorem divInt_samplesPerAvg (x : ℚ) :
    F32.divInt (F32.finite x) samplesPerAvg = roundF32 (x / 60) := by
  have h60 : roundF32 ((samplesPerAvg : Int) : ℚ) = F32.finite 60 := by
    rw [samplesPerAvg_cast]
    have h := roundF32_exact 60 0 (by decide) (by decide)
    simpa using h
  unfold F32.divInt
  rw [h60]
  simp

theorem f32Sum_append_singleton (xs : List F32) (x : F32) :
    f32Sum (xs ++ [x]) = F32.add (f32Sum xs) x := by
  simp [f32Sum, List.foldl_append]

/-- When every partial sum is a binary32 value, the `float` sum is the exact sum. -/
theorem f32Sum_exact (qs : List ℚ) :
    (∀ k, k ≤ qs.length → Representable ((qs.take k).sum)) →
      f32Sum (qs.map F32.finite) = F32.finite qs.sum := by
  induction qs using List.reverseRecOn with
  | nil => intro _; simp [f32Sum]
  | append_singleton init x ih =>
    intro h
    have hinit : ∀ k, k ≤ init.length → Representable ((init.take k).sum) := by
      intro k hk
      have := h k (by simp; omega)
      rwa [List.take_append_of_le_length hk] at this
    have hall := h (init ++ [x]).length (le_refl _)
    rw [List.take_length] at hall
    rw [List.map_append, List.map_singleton, f32Sum_append_singleton, ih hinit]
    simp only [F32.add]
    rw [List.sum_append, List.sum_singleton] at hall ⊢
    exact hall

/-- When every partial sum and the quotient are binary32 values, the `float`
mean is the exact arithmetic mean. -/
theorem f32Mean_exact (qs : List ℚ)
    (hsum : ∀ k, k ≤ qs.length → Representable ((qs.take k).sum))
    (hmean : Representable (qs.sum / 60)) :
    f32Mean (qs.map F32.finite) = F32.finite (qs.sum / 60) := by
  unfold f32Mean
  rw [f32Sum_exact qs hsum, divInt_samplesPerAvg]
  exact hmean

theorem exactMean_finite (qs : List ℚ) : exactMean (qs.map F32.finite) = qs.sum / 60 := by
  unfold exactMean
  rw [samplesPerAvg_cast, List.map_map]
  have : (F32.toRat ∘ F32.finite) = id := by funext x; rfl
  rw [this, List.map_id]

theorem f32Sum_zeros (n : Nat) : f32Sum (List.replicate n (F32.finite 0)) = F32.finite 0 := by
  induction n with
  | zero => rfl
  | succ n ih =>
    rw [List.replicate_succ', f32Sum_append_singleton, ih]
    simp only [F32.add]
    rw [add_zero, roundF32_zero]

/-- The `float` mean of 59 zeros followed by `1.0` is `1.0f / 60.0f`, which
is not `1 / 60`. -/
theorem f32Mean_spike :
    f32Mean (List.replicate 59 (F32.finite 0) ++ [F32.finite 1])
      = F32.finite (8947849 / 536870912) := by
  unfold f32Mean
  rw [f32Sum_append_singleton, f32Sum_zeros]
  simp only [F32.add]
  rw [zero_add, roundF32_one, divInt_samplesPerAvg, roundF32_one_sixtieth]

theorem f32Mean_zeros :
    f32Mean ((List.range 60).map (fun _ : Nat => F32.finite 0)) = F32.finite 0 := by
  unfold f32Mean
  rw [List.map_const', f32Sum_zeros, divInt_samplesPerAvg]
  rw [zero_div, roundF32_zero]

theorem ramp_sum (k : Nat) :
    ((List.range k).map (fun i : Nat => (i : ℚ) + 1)).sum = ((k * (k + 1) : Int) : ℚ) / 2 ^ 1 := by
  induction k with
  | zero => simp
  | succ k ih =>
    rw [List.range_succ, List.map_append, List.sum_append, ih]
    simp only [List.map_singleton, List.sum_singleton]
    push_cast
    ring

/-- The `float` mean of the ramp 1, 2, ..., 60 is exactly 30.5. -/
theorem f32Mean_ramp :
    f32Mean ((List.range 60).map (fun i : Nat => F32.finite ((i : ℚ) + 1)))
      = F32.finite (61 / 2) := by
  have hmap : (List.range 60).map (fun i : Nat => F32.finite ((i : ℚ) + 1))
      = ((List.range 60).map (fun i : Nat => (i : ℚ) + 1)).map F32.finite := by
    rw [List.map_map]; rfl
  rw [hmap, f32Mean_exact]
  · rw [ramp_sum]; norm_num
  · intro k hk
    simp only [List.length_map, List.length_range] at hk
    rw [← List.map_take, List.take_range, Nat.min_eq_left hk, ramp_sum]
    apply roundF32_exact _ 1 _ (by decide)
    have h1 : ((k : Int) * (k + 1)) ≤ 60 * 61 := by
      have hk2 : (k : Int) ≤ 60 := by exact_mod_cast hk
      nlinarith
    have h2 : (0 : Int) ≤ (k : Int) * (k + 1) := by positivity
    rw [abs_of_nonneg h2]
    omega
  · rw [ramp_sum]
    have h := roundF32_exact 61 1 (by decide) (by decide)
    unfold Representable
    norm_num at h ⊢
    exact h

/-! ## Index arithmetic and single steps -/

/-- On a non-negative sum the truncating remainder of `getRingBufferIndex` is
the Euclidean one. -/
theorem getRingBufferIndex_of_nonneg (b o : Int) (h : 0 ≤ b + o + 4320) :
    getRingBufferIndex b o = (b + o + 4320) % 4320 := by
  unfold getRingBufferIndex
  rw [totalSamples_eq, Int.tmod_eq_emod h (by decide)]

theorem windowDue_iff (c : Int) (hc : 0 ≤ c) :
    windowDue c = true ↔ (c + 1) % 60 = 0 := by
  unfold windowDue
  rw [samplesPerAvg_eq, Int.tmod_eq_emod (by omega) (by decide)]
  simp only [Bool.and_eq_true, decide_eq_true_eq]
  omega

theorem avgIndex_of_nonneg (c : Int) (hc : 0 ≤ c) : avgIndex c = (c + 1) / 60 - 1 := by
  unfold avgIndex
  rw [samplesPerAvg_eq, Int.tdiv_eq_ediv (by omega) (by decide)]

theorem windowReadIndex_eq (c : Int) (i : Int) (hc : 59 ≤ c) (hc2 : c < 4320) (hi : 0 ≤ i)
    (hi2 : i < 60) : windowReadIndex c i = c - 59 + i := by
  unfold windowReadIndex
  rw [samplesPerAvg_eq, getRingBufferIndex_of_nonneg _ _ (by omega)]
  omega

/-- The partial sums of the averaging loop, when the whole window lies inside
the raw ring. -/
theorem sumLoop_eq (vd : Int → SampleData) (c : Int) (hc : 59 ≤ c) (hc2 : c < 4320) :
    ∀ k : Nat, k ≤ 60 →
      sumLoop vd c k
        = some (fun ch =>
            f32Sum ((List.range k).map (fun i : Nat => (vd (c - 59 + (i : Int))).voltage ch))) := by
  intro k
  induction k with
  | zero => intro _; simp [sumLoop, f32Sum]
  | succ k ih =>
    intro hk
    have hread : readAt totalSamples vd (windowReadIndex c (k : Int)) = some (vd (c - 59 + (k : Int))) := by
      rw [windowReadIndex_eq c k hc hc2 (by omega) (by omega)]
      unfold readAt
      rw [totalSamples_eq, if_pos (by omega)]
    simp only [sumLoop, ih (by omega), hread]
    congr 1
    funext ch
    simp [List.range_succ, f32Sum, List.foldl_append]

/-- One call of `sampleVoltages` from a state whose cursor is inside the raw
ring: it succeeds, and this is the state it produces. -/
theorem sampleVoltages_eq (s : State) (r : Reading) (h0 : 0 ≤ s.currentSample)
    (h1 : s.currentSample < 4320) :
    sampleVoltages s r = some
      { voltageData := Function.update s.voltageData s.currentSample ⟨r.voltage, r.now⟩
        avgVoltage :=
          if (s.currentSample + 1) % 60 = 0 then
            Function.update s.avgVoltage ((s.currentSample + 1) / 60 - 1)
              ⟨fun ch => f32Mean ((List.range 60).map (fun i : Nat =>
                  ((Function.update s.voltageData s.currentSample ⟨r.voltage, r.now⟩)
                    (s.currentSample - 59 + (i : Int))).voltage ch)), r.now⟩
          else s.avgVoltage
        currentSample := (s.currentSample + 1) % 4320 } := by
  unfold sampleVoltages
  have hw : writeAt totalSamples s.voltageData s.currentSample ⟨r.voltage, r.now⟩
      = some (Function.update s.voltageData s.currentSample ⟨r.voltage, r.now⟩) := by
    unfold writeAt
    rw [totalSamples_eq, if_pos ⟨h0, h1⟩]
  rw [hw]
  simp only
  rw [totalSamples_eq, Int.tmod_eq_emod (by omega) (by decide)]
  by_cases hd : (s.currentSample + 1) % 60 = 0
  · have hdue : windowDue s.currentSample = true := (windowDue_iff _ h0).2 hd
    have h59 : 59 ≤ s.currentSample := by omega
    rw [hdue, if_pos hd]
    simp only [if_true]
    unfold computeAverage
    have h60 : samplesPerAvg.toNat = 60 := by rw [samplesPerAvg_eq]; rfl
    rw [h60, sumLoop_eq _ _ h59 h1 60 (le_refl _)]
    simp only
    unfold writeAt
    rw [avgIndex_of_nonneg _ h0, avgCapacity_eq, Int.tmod_eq_emod (by omega) (by decide)]
    have hm : ((s.currentSample + 1) / 60 - 1) % 72 = (s.currentSample + 1) / 60 - 1 := by omega
    rw [hm, if_pos (by omega)]
    rfl
  · have hdue : windowDue s.currentSample = false := by
      rw [← Bool.not_eq_true, windowDue_iff _ h0]; exact hd
    rw [hdue, if_neg hd]
    simp

/-! ## Runs of ticks -/

theorem runTicks_append (s : State) (as bs : List Reading) :
    runTicks s (as ++ bs) = (runTicks s as).bind (fun s' => runTicks s' bs) := by
  induction as generalizing s with
  | nil => simp [runTicks]
  | cons a as ih =>
    simp only [List.cons_append, runTicks]
    cases sampleVoltages s a with
    | none => simp
    | some s' => simpa using ih s'

theorem readingAt_append_left (rs : List Reading) (r : Reading) (j : Nat) (h : j < rs.length) :
    readingAt (rs ++ [r]) j = readingAt rs j := by
  unfold readingAt
  simp [List.getD_eq_getElem?_getD, List.getElem?_append_left h]

theorem readingAt_append_length (rs : List Reading) (r : Reading) :
    readingAt (rs ++ [r]) rs.length = r := by
  unfold readingAt
  simp [List.getD_eq_getElem?_getD]

theorem runInv_init : RunInv [] initState where
  cursor := by simp [initState]
  raw := by intro j hj; simp at hj
  avg := by intro m hm h; simp at h; omega
  fresh := by intro k _; rfl

theorem RunInv.cursor_bounds {rs : List Reading} {s : State} (h : RunInv rs s) :
    0 ≤ s.currentSample ∧ s.currentSample < 4320 := by
  rw [h.cursor]; omega

/-- One more tick from a state satisfying the run invariant succeeds and
re-establishes the invariant for the longer tick sequence. -/
theorem runInv_step (rs : List Reading) (s : State) (r : Reading) (h : RunInv rs s) :
    ∃ s', sampleVoltages s r = some s' ∧ RunInv (rs ++ [r]) s' := by
  obtain ⟨h0, h1⟩ := h.cursor_bounds
  refine ⟨_, sampleVoltages_eq s r h0 h1, ?_⟩
  have hc := h.cursor
  have hlen : (rs ++ [r]).length = rs.length + 1 := by simp
  generalize hL : rs.length = L at *
  generalize hcv : s.currentSample = c at *
  constructor
  · -- cursor
    simp only [hlen]
    push_cast
    omega
  · -- raw ring
    intro j hj hj2
    simp only [hlen] at hj hj2
    dsimp only
    by_cases hjl : j = L
    · subst hjl
      have : ((j : Int) % 4320) = c := by omega
      rw [this, Function.update_same, ← hL, readingAt_append_length]
    · have hne : ((j : Int) % 4320) ≠ c := by omega
      rw [Function.update_noteq hne, h.raw j (by omega) (by omega),
        readingAt_append_left rs r j (by omega)]
  · -- average ring
    intro m hm hm1 hm2
    simp only [hlen] at hm1 hm2
    have hold : 60 * m ≤ L → rs.length < 60 * m + 4320 →
        s.avgVoltage (((m : Int) - 1) % 72)
          = ⟨fun ch => f32Mean ((List.range 60).map (fun i : Nat =>
              (readingAt (rs ++ [r]) (60 * (m - 1) + i)).voltage ch)),
            (readingAt (rs ++ [r]) (60 * m - 1)).now⟩ := by
      intro hle hlt
      rw [h.avg m hm (by omega) hlt, readingAt_append_left rs r (60 * m - 1) (by omega)]
      congr 1
      funext ch
      congr 1
      apply List.map_congr_left
      intro i hi
      rw [List.mem_range] at hi
      rw [readingAt_append_left rs r (60 * (m - 1) + i) (by omega)]
    dsimp only
    by_cases hd : (c + 1) % 60 = 0
    · rw [if_pos hd]
      by_cases hnew : 60 * m = L + 1
      · have hslot : ((m : Int) - 1) % 72 = (c + 1) / 60 - 1 := by omega
        rw [hslot, Function.update_same]
        have hlast : 60 * m - 1 = L := by omega
        rw [hlast, ← hL, readingAt_append_length]
        congr 1
        funext ch
        congr 1
        apply List.map_congr_left
        intro i hi
        rw [List.mem_range] at hi
        by_cases hi59 : i = 59
        · subst hi59
          have e1 : c - 59 + ((59 : Nat) : Int) = c := by omega
          have e2 : 60 * (m - 1) + 59 = rs.length := by omega
          rw [e1, Function.update_same, e2, readingAt_append_length]
        · have hne : c - 59 + (i : Int) ≠ c := by omega
          have hidx : c - 59 + (i : Int) = ((60 * (m - 1) + i : Nat) : Int) % 4320 := by
            push_cast; omega
          rw [Function.update_noteq hne, hidx, h.raw _ (by omega) (by omega),
            readingAt_append_left rs r _ (by omega)]
      · have hne : ((m : Int) - 1) % 72 ≠ (c + 1) / 60 - 1 := by omega
        rw [Function.update_noteq hne]
        exact hold (by omega) (by omega)
    · rw [if_neg hd]
      exact hold (by omega) (by omega)
  · -- untouched average slots
    intro k hk
    simp only [hlen] at hk
    push_cast at hk
    dsimp only
    by_cases hd : (c + 1) % 60 = 0
    · rw [if_pos hd]
      have hne : k ≠ (c + 1) / 60 - 1 := by omega
      rw [Function.update_noteq hne]
      exact h.fresh k (by omega)
    · rw [if_neg hd]
      exact h.fresh k (by omega)

/-- Every run of ticks from the initial state succeeds and ends in a state
satisfying the run invariant. -/
theorem runTicks_inv (rs : List Reading) : ∃ s, runTicks initState rs = some s ∧ RunInv rs s := by
  induction rs using List.reverseRecOn with
  | nil => exact ⟨initState, rfl, runInv_init⟩
  | append_singleton rs r ih =>
    obtain ⟨s, hs, hinv⟩ := ih
    obtain ⟨s', hs', hinv'⟩ := runInv_step rs s r hinv
    refine ⟨s', ?_, hinv'⟩
    rw [runTicks_append, hs]
    simp [runTicks, hs']

/-- The readings at positions `n, n+1, ..., n+k-1` of a sequence of length
`n + k` are its last `k` readings. -/
theorem range_map_readingAt (rs : List Reading) (n k : Nat) (h : rs.length = n + k)
    {α : Type} (f : Reading → α) :
    (List.range k).map (fun i : Nat => f (readingAt rs (n + i))) = (rs.drop n).map f := by
  apply List.ext_getElem
  · simp [h]
  · intro i h1 h2
    simp only [List.length_map, List.length_range] at h1
    simp only [List.getElem_map, List.getElem_range, List.getElem_drop, readingAt]
    rw [List.getD_eq_getElem _ _ (by omega)]

/-- A non-empty run from the initial state, split at its last tick. -/
theorem run_last (rs : List Reading) (r : Reading) :
    ∃ pre s, runTicks initState rs = some pre ∧ RunInv rs pre ∧
      sampleVoltages pre r = some s ∧ runTicks initState (rs ++ [r]) = some s ∧
      RunInv (rs ++ [r]) s := by
  obtain ⟨pre, hpre, hinv⟩ := runTicks_inv rs
  obtain ⟨s, hs, hinv'⟩ := runInv_step rs pre r hinv
  refine ⟨pre, s, hpre, hinv, hs, ?_, hinv'⟩
  rw [runTicks_append, hpre]
  simp [runTicks, hs]

/-- From a state reached by the ticks `pre`, the further ticks `rs` enter the
averaging branch once for every multiple of 60 in `(pre.length, pre.length + rs.length]`. -/
theorem windowCount_from (rs : List Reading) :
    ∀ (pre : List Reading) (s : State), RunInv pre s →
      windowCount s rs = (pre.length + rs.length) / 60 - pre.length / 60 := by
  induction rs with
  | nil => intro pre s _; simp [windowCount]
  | cons r rs ih =>
    intro pre s hinv
    obtain ⟨s', hs', hinv'⟩ := runInv_step pre s r hinv
    obtain ⟨h0, _⟩ := hinv.cursor_bounds
    have hc := hinv.cursor
    have hrec := ih (pre ++ [r]) s' hinv'
    simp only [windowCount, hs', hrec, List.length_append, List.length_cons, List.length_nil]
    by_cases hd : (s.currentSample + 1) % 60 = 0
    · rw [(windowDue_iff _ h0).2 hd]
      simp only [if_true]
      omega
    · have hdue : windowDue s.currentSample = false := by
        rw [← Bool.not_eq_true, windowDue_iff _ h0]; exact hd
      rw [hdue]
      simp only [Bool.false_eq_true, if_false]
      omega

theorem getLast?_eq_readingAt (rs : List Reading) (h : 0 < rs.length) :
    rs.getLast? = some (readingAt rs (rs.length - 1)) := by
  rw [List.getLast?_eq_getElem?, readingAt, List.getD_eq_getElem _ _ (by omega),
    List.getElem?_eq_getElem (by omega)]

/-- After `60 * m` ticks, the average slot of window `m` holds the mean of the
last 60 readings and the timestamp of the last one. -/
theorem window_slot_contents (rs : List Reading) (s : State) (m : Nat) (hm : 1 ≤ m)
    (hlen : rs.length = 60 * m) (hinv : RunInv rs s) :
    s.avgVoltage (((m : Int) - 1) % 72)
      = ⟨fun ch => f32Mean (channelReadings (rs.drop (rs.length - 60)) ch),
          (readingAt rs (rs.length - 1)).now⟩ := by
  rw [hinv.avg m hm (by omega) (by omega)]
  have e : rs.length - 60 = 60 * (m - 1) := by omega
  have e2 : rs.length - 1 = 60 * m - 1 := by omega
  rw [e, e2]
  congr 1
  funext ch
  rw [range_map_readingAt rs (60 * (m - 1)) 60 (by omega) (fun r => r.voltage ch)]
  rfl

theorem rampReadings_length (n : Nat) : (rampReadings n).length = n := by
  simp [rampReadings]

theorem readingAt_ramp (n k : Nat) (h : k < n) :
    readingAt (rampReadings n) k
      = ⟨![F32.finite ((k : ℚ) + 1), F32.finite 0, F32.finite 0, F32.finite 0],
          10 * (k : Int)⟩ := by
  unfold readingAt rampReadings
  rw [List.getD_eq_getElem _ _ (by simpa using h)]
  simp

/-- Facts about the last tick of a run of `60 * m` ticks (`m ≥ 1`): the state
before it, the state after it, and the average slot it writes. -/
theorem last_tick_of_window (rs : List Reading) (m : Nat) (hm : 1 ≤ m)
    (hlen : rs.length = 60 * m) :
    ∃ pre s r, rs.getLast? = some r ∧ r = readingAt rs (rs.length - 1) ∧
      runTicks initState rs.dropLast = some pre ∧
      sampleVoltages pre r = some s ∧ runTicks initState rs = some s ∧
      RunInv rs.dropLast pre ∧ RunInv rs s ∧
      windowDue pre.currentSample = true ∧
      Int.tmod (avgIndex pre.currentSample) (totalHours * 6) = ((m : Int) - 1) % 72 ∧
      (∀ k : Int, k ≠ ((m : Int) - 1) % 72 → s.avgVoltage k = pre.avgVoltage k) := by
  rcases List.eq_nil_or_concat rs with hnil | ⟨init, r, hrs⟩
  · subst hnil; simp at hlen; omega
  · rw [List.concat_eq_append] at hrs
    subst hrs
    obtain ⟨pre, s, hpre, hinv, hstep, hrun, hinv'⟩ := run_last init r
    have hl : init.length + 1 = 60 * m := by simpa using hlen
    obtain ⟨h0, h1⟩ := hinv.cursor_bounds
    have hc := hinv.cursor
    have hd : (pre.currentSample + 1) % 60 = 0 := by omega
    have hslot : Int.tmod (avgIndex pre.currentSample) (totalHours * 6) = ((m : Int) - 1) % 72 := by
      rw [avgIndex_of_nonneg _ h0, avgCapacity_eq, Int.tmod_eq_emod (by omega) (by decide)]
      omega
    refine ⟨pre, s, r, by simp, ?_, by simpa using hpre, hstep, hrun, by simpa using hinv, hinv',
      (windowDue_iff _ h0).2 hd, hslot, ?_⟩
    · have : (init ++ [r]).length - 1 = init.length := by simp
      rw [this, readingAt_append_length]
    · intro k hk
      have hst := sampleVoltages_eq pre r h0 h1
      rw [hstep] at hst
      injection hst with hst
      rw [hst]
      dsimp only
      rw [if_pos hd, Function.update_noteq]
      omega

/-- The truncating remainder of a negative dividend, by the Euclidean one. -/
theorem tmod_of_neg (a b : Int) (ha : a < 0) (hb : 0 < b) : Int.tmod a b = -((-a) % b) := by
  have h1 : Int.tmod a b = a - b * Int.tdiv a b := Int.tmod_def a b
  have h2 : Int.tdiv (-a) b = -(Int.tdiv a b) := Int.neg_tdiv a b
  have h3 : Int.tdiv (-a) b = (-a) / b := Int.tdiv_eq_ediv (by omega) (by omega)
  have h4 : (-a) % b = (-a) - b * ((-a) / b) := by
    have := Int.emod_add_ediv (-a) b
    omega
  rw [h1, h4, ← h3, h2]
  ring

/-- The first component of `getLatestIndices` for a cursor inside the ring. -/
theorem latestSampleIdx_eq (s : State) (h0 : 0 ≤ s.currentSample) (h1 : s.currentSample < 4320) :
    (getLatestIndices s).1 = (s.currentSample + 4319) % 4320 := by
  unfold getLatestIndices
  simp only
  rw [getRingBufferIndex_of_nonneg _ _ (by omega)]
  omega

/-- The second component of `getLatestIndices` for a cursor inside the ring. -/
theorem latestAvgIdx_eq (s : State) (h0 : 0 ≤ s.currentSample) (h1 : s.currentSample < 4320) :
    (getLatestIndices s).2 = if s.currentSample = 0 then -1 else (s.currentSample - 1) / 60 := by
  unfold getLatestIndices
  simp only
  by_cases hz : s.currentSample = 0
  · rw [hz]; decide
  · have hpos : s.currentSample > 0 := by omega
    rw [if_pos hpos, if_neg hz, samplesPerAvg_eq, Int.tdiv_eq_ediv (by omega) (by decide),
      if_pos (by omega), avgCapacity_eq, Int.tmod_eq_emod (by omega) (by decide)]
    omega

/-- A call that does not enter the averaging branch leaves the Average Ring
as it was. -/
theorem sampleVoltages_no_window (s s' : State) (r : Reading)
    (hdue : windowDue s.currentSample = false) (hs : sampleVoltages s r = some s') :
    s'.avgVoltage = s.avgVoltage := by
  unfold sampleVoltages at hs
  rw [hdue] at hs
  cases hw : writeAt totalSamples s.voltageData s.currentSample ⟨r.voltage, r.now⟩ with
  | none => rw [hw] at hs; simp at hs
  | some vd =>
    rw [hw] at hs
    simp only [Bool.false_eq_true, if_false, Option.some.injEq] at hs
    rw [← hs]

theorem spikeReadings_length (n : Nat) (hn : 1 ≤ n) : (spikeReadings n).length = n := by
  simp [spikeReadings]; omega

/-- Every reading of the spike sequence is the `float` 0.0 or 1.0. -/
theorem spike_values (n : Nat) :
    Representable 0 ∧ Representable 1 ∧
    ∀ r ∈ spikeReadings n, ∀ ch, r.voltage ch = F32.finite 0 ∨ r.voltage ch = F32.finite 1 := by
  refine ⟨roundF32_zero, roundF32_one, ?_⟩
  intro r hr ch
  unfold spikeReadings at hr
  rw [List.mem_append, List.mem_replicate, List.mem_singleton] at hr
  rcases hr with ⟨_, h⟩ | h
  · left; rw [h]
  · right; rw [h]

/-- The last 60 readings of the spike sequence, on any channel: their `float`
mean and their exact mean. -/
theorem spike_window (n : Nat) (hn : 60 ≤ n) (ch : Fin 4) :
    f32Mean (channelReadings ((spikeReadings n).drop (n - 60)) ch)
        = F32.finite (8947849 / 536870912) ∧
      exactMean (channelReadings ((spikeReadings n).drop (n - 60)) ch) = 1 / 60 := by
  have hwin : channelReadings ((spikeReadings n).drop (n - 60)) ch
      = List.replicate 59 (F32.finite 0) ++ [F32.finite 1] := by
    unfold channelReadings spikeReadings
    rw [List.drop_append_of_le_length (by simp; omega), List.drop_replicate]
    have e : n - 1 - (n - 60) = 59 := by omega
    rw [e]
    simp
  rw [hwin]
  refine ⟨f32Mean_spike, ?_⟩
  have hq : List.replicate 59 (F32.finite 0) ++ [F32.finite 1]
      = (List.replicate 59 (0 : ℚ) ++ [1]).map F32.finite := by simp
  rw [hq, exactMean_finite]
  simp

theorem f32Mean_eq_exactMean (w : List F32) (qs : List ℚ) (hw : w = qs.map F32.finite)
    (hsum : ∀ k, k ≤ qs.length → Representable ((qs.take k).sum))
    (hmean : Representable (qs.sum / 60)) :
    f32Mean w = F32.finite (exactMean w) := by
  subst hw
  rw [f32Mean_exact qs hsum hmean, exactMean_finite]

/-- The run of `60 * m` spike ticks: the slot of window `m` holds
`1.0f / 60.0f` on channel 0, while the exact mean of the window is `1 / 60`. -/
theorem spike_run (m : Nat) (hm : 1 ≤ m) :
    ∃ s, runTicks initState (spikeReadings (60 * m)) = some s ∧
      (s.avgVoltage (((m : Int) - 1) % 72)).voltage 0 = F32.finite (8947849 / 536870912) ∧
      exactMean (channelReadings ((spikeReadings (60 * m)).drop (60 * m - 60)) 0) = 1 / 60 := by
  obtain ⟨s, hs, hinv⟩ := runTicks_inv (spikeReadings (60 * m))
  have hlen := spikeReadings_length (60 * m) (by omega)
  have hslot := window_slot_contents _ s m hm hlen hinv
  obtain ⟨hf, he⟩ := spike_window (60 * m) (by omega) 0
  refine ⟨s, hs, ?_, he⟩
  rw [hslot, hlen]
  exact hf

/-! ## The claims -/

/-- C1 as stated fails: after 59 ticks reading 0.0 and a 60th reading 1.0
(both binary32 values), slot 0 holds `1.0f / 60.0f = 8947849 / 2 ^ 29`, not the exact mean `1 / 60`. -/
theorem first_window_not_exact_mean :
    ((spikeReadings 60).length : Int) = samplesPerAvg ∧
    (Representable 0 ∧ Representable 1 ∧
      ∀ r ∈ spikeReadings 60, ∀ ch, r.voltage ch = F32.finite 0 ∨ r.voltage ch = F32.finite 1) ∧
    ∃ s, runTicks initState (spikeReadings 60) = some s ∧
      (s.avgVoltage 0).voltage 0 = F32.finite (8947849 / 536870912) ∧
      exactMean (channelReadings (spikeReadings 60) 0) = 1 / 60 ∧
      (s.avgVoltage 0).voltage 0
        ≠ F32.finite (exactMean (channelReadings (spikeReadings 60) 0)) := by
  obtain ⟨s, hs, hv, he⟩ := spike_run 1 (le_refl _)
  have h0 : (((1 : Nat) : Int) - 1) % 72 = 0 := by decide
  rw [h0] at hv
  simp only [Nat.mul_one, Nat.sub_self, List.drop_zero] at hs he
  refine ⟨by rw [spikeReadings_length 60 (by decide), samplesPerAvg_eq]; rfl,
    spike_values 60, s, hs, hv, he, ?_⟩
  rw [hv, he]
  intro h
  injection h with h
  norm_num at h

/-- C1 (amended): from the initial state, after exactly `samplesPerAvg` (= 60)
calls of `sampleVoltages` on any readings, Average Ring slot 0 holds for each
channel the `float` mean of those 60 readings: they are added in tick order to
0.0 and the sum is divided by `samplesPerAvg`, every operation rounded to
binary32.  This is the exact arithmetic mean whenever every partial sum and
the quotient are binary32 values.  The timestamp of slot 0 is the timestamp of
the 60th tick.  When the first channel reads 1, 2, ..., 60 and the others 0,
slot 0 holds exactly (30.5, 0, 0, 0). -/
theorem first_window_mean (rs : List Reading) (hlen : (rs.length : Int) = samplesPerAvg) :
    ∃ s, runTicks initState rs = some s ∧
      (∀ ch, (s.avgVoltage 0).voltage ch = f32Mean (channelReadings rs ch)) ∧
      (∀ ch (qs : List ℚ), channelReadings rs ch = qs.map F32.finite →
        (∀ k, k ≤ qs.length → Representable ((qs.take k).sum)) →
        Representable (qs.sum / 60) →
        (s.avgVoltage 0).voltage ch = F32.finite (exactMean (channelReadings rs ch))) ∧
      rs.getLast?.map Reading.now = some (s.avgVoltage 0).timestamp ∧
      ((∀ k : Nat, k < 60 → (readingAt rs k).voltage
          = ![F32.finite ((k : ℚ) + 1), F32.finite 0, F32.finite 0, F32.finite 0]) →
        (s.avgVoltage 0).voltage
          = ![F32.finite (61 / 2), F32.finite 0, F32.finite 0, F32.finite 0]) := by
  rw [samplesPerAvg_eq] at hlen
  have hl : rs.length = 60 := by omega
  obtain ⟨s, hs, hinv⟩ := runTicks_inv rs
  have hslot := window_slot_contents rs s 1 (le_refl _) (by omega) hinv
  have h0 : (((1 : Nat) : Int) - 1) % 72 = 0 := by decide
  rw [h0, hl] at hslot
  simp only [Nat.sub_self, List.drop_zero] at hslot
  refine ⟨s, hs, ?_, ?_, ?_, ?_⟩
  · intro ch
    rw [hslot]
  · intro ch qs hw hsum hmean
    rw [hslot]
    exact f32Mean_eq_exactMean _ qs hw hsum hmean
  · rw [hslot, getLast?_eq_readingAt rs (by omega), hl]
    rfl
  · intro hramp
    have hraw := hinv.avg 1 (le_refl _) (by omega) (by omega)
    rw [h0] at hraw
    rw [hraw]
    funext ch
    have hmap : (List.range 60).map (fun i : Nat => (readingAt rs (60 * (1 - 1) + i)).voltage ch)
        = (List.range 60).map (fun i : Nat =>
            (![F32.finite ((i : ℚ) + 1), F32.finite 0, F32.finite 0, F32.finite 0] :
              Fin 4 → F32) ch) := by
      apply List.map_congr_left
      intro i hi
      rw [List.mem_range] at hi
      simp only [Nat.sub_self, Nat.mul_zero, Nat.zero_add]
      rw [hramp i hi]
    simp only [hmap]
    fin_cases ch
    · exact f32Mean_ramp
    · exact f32Mean_zeros
    · exact f32Mean_zeros
    · exact f32Mean_zeros

/-- The ramp of C1: channel-1 readings 1, 2, ..., 60, the other channels 0,
give slot 0 = (30.5, 0, 0, 0) with the timestamp of the 60th tick. -/
theorem first_window_mean_witness :
    ((rampReadings 60).length : Int) = samplesPerAvg ∧
    ∃ s, runTicks initState (rampReadings 60) = some s ∧
      (s.avgVoltage 0).voltage
        = ![F32.finite (61 / 2), F32.finite 0, F32.finite 0, F32.finite 0] ∧
      (s.avgVoltage 0).timestamp = 590 := by
  have hlen : ((rampReadings 60).length : Int) = samplesPerAvg := by
    rw [rampReadings_length, samplesPerAvg_eq]; rfl
  obtain ⟨s, hs, _, _, hts, hramp⟩ := first_window_mean (rampReadings 60) hlen
  refine ⟨hlen, s, hs, hramp ?_, ?_⟩
  · intro k hk
    rw [readingAt_ramp 60 k hk]
  · rw [getLast?_eq_readingAt _ (by rw [rampReadings_length]; decide), rampReadings_length,
      readingAt_ramp 60 59 (by decide)] at hts
    simp only [Option.map_some', Option.some.injEq] at hts
    rw [← hts]
    norm_num

/-- C2 as stated fails: after 4379 ticks reading 0.0 and a 4380th reading 1.0
(the 73rd window, after a wrap of the raw ring), the slot written by the last
tick (slot 0) holds `1.0f / 60.0f = 8947849 / 2 ^ 29`, not the exact mean
`1 / 60` of the last 60 readings. -/
theorem window_not_exact_mean :
    ((spikeReadings 4380).length : Int) = ((73 : Nat) : Int) * samplesPerAvg ∧
    (Representable 0 ∧ Representable 1 ∧
      ∀ r ∈ spikeReadings 4380, ∀ ch,
        r.voltage ch = F32.finite 0 ∨ r.voltage ch = F32.finite 1) ∧
    ∃ s, runTicks initState (spikeReadings 4380) = some s ∧
      (s.avgVoltage 0).voltage 0 = F32.finite (8947849 / 536870912) ∧
      exactMean (channelReadings ((spikeReadings 4380).drop 4320) 0) = 1 / 60 ∧
      (s.avgVoltage 0).voltage 0
        ≠ F32.finite (exactMean (channelReadings ((spikeReadings 4380).drop 4320) 0)) := by
  obtain ⟨s, hs, hv, he⟩ := spike_run 73 (by decide)
  have h0 : (((73 : Nat) : Int) - 1) % 72 = 0 := by decide
  rw [h0] at hv
  have e1 : 60 * 73 = 4380 := by norm_num
  have e2 : 4380 - 60 = 4320 := by norm_num
  rw [e1] at hs he
  rw [e2] at he
  refine ⟨by rw [spikeReadings_length 4380 (by decide), samplesPerAvg_eq]; rfl,
    spike_values 4380, s, hs, hv, he, ?_⟩
  rw [hv, he]
  intro h
  injection h with h
  norm_num at h

/-- C2 (amended): for every `m ≥ 1` and every sequence of
`N = m * samplesPerAvg` ticks from the initial state (however often the raw
ring has wrapped), the `N`-th tick enters the averaging branch, and the Average
Ring entry it writes holds for each channel the `float` mean of exactly the
last `samplesPerAvg` readings (ticks `N - samplesPerAvg + 1 .. N`, added in tick
order to 0.0 and divided by `samplesPerAvg`, every operation rounded to
binary32), with the timestamp of tick `N`.  This is the exact arithmetic mean
whenever every partial sum and the quotient are binary32 values. -/
theorem window_mean_of_latest_samples (rs : List Reading) (m : Nat) (hm : 1 ≤ m)
    (hlen : (rs.length : Int) = (m : Int) * samplesPerAvg) :
    ∃ pre s r, rs.getLast? = some r ∧
      runTicks initState rs.dropLast = some pre ∧
      sampleVoltages pre r = some s ∧ runTicks initState rs = some s ∧
      windowDue pre.currentSample = true ∧
      (∀ ch, (s.avgVoltage (Int.tmod (avgIndex pre.currentSample) (totalHours * 6))).voltage ch
        = f32Mean (channelReadings (rs.drop (rs.length - samplesPerAvg.toNat)) ch)) ∧
      (∀ ch (qs : List ℚ),
        channelReadings (rs.drop (rs.length - samplesPerAvg.toNat)) ch = qs.map F32.finite →
        (∀ k, k ≤ qs.length → Representable ((qs.take k).sum)) →
        Representable (qs.sum / 60) →
        (s.avgVoltage (Int.tmod (avgIndex pre.currentSample) (totalHours * 6))).voltage ch
          = F32.finite
              (exactMean (channelReadings (rs.drop (rs.length - samplesPerAvg.toNat)) ch))) ∧
      (s.avgVoltage (Int.tmod (avgIndex pre.currentSample) (totalHours * 6))).timestamp = r.now := by
  rw [samplesPerAvg_eq] at hlen
  have hl : rs.length = 60 * m := by omega
  obtain ⟨pre, s, r, hlast, hr, hpre, hstep, hrun, _, hinv, hdue, hslot, _⟩ :=
    last_tick_of_window rs m hm hl
  have hcont := window_slot_contents rs s m hm hl hinv
  have h60 : samplesPerAvg.toNat = 60 := by rw [samplesPerAvg_eq]; rfl
  refine ⟨pre, s, r, hlast, hpre, hstep, hrun, hdue, ?_, ?_, ?_⟩
  · intro ch
    rw [hslot, hcont, h60]
  · intro ch qs hw hsum hmean
    rw [hslot, hcont, h60]
    rw [h60] at hw
    exact f32Mean_eq_exactMean _ qs hw hsum hmean
  · rw [hslot, hcont, hr]

/-- A run of 73 windows (4380 ticks) of the ramp, whose last window starts
after the raw ring has wrapped: the last tick writes its timestamp 43790. -/
theorem window_mean_of_latest_samples_witness :
    1 ≤ 73 ∧ ((rampReadings 4380).length : Int) = ((73 : Nat) : Int) * samplesPerAvg ∧
    ∃ pre s r, (rampReadings 4380).getLast? = some r ∧
      runTicks initState (rampReadings 4380).dropLast = some pre ∧
      sampleVoltages pre r = some s ∧ runTicks initState (rampReadings 4380) = some s ∧
      windowDue pre.currentSample = true ∧
      (∀ ch, (s.avgVoltage (Int.tmod (avgIndex pre.currentSample) (totalHours * 6))).voltage ch
        = f32Mean (channelReadings
            ((rampReadings 4380).drop ((rampReadings 4380).length - samplesPerAvg.toNat)) ch)) ∧
      (s.avgVoltage (Int.tmod (avgIndex pre.currentSample) (totalHours * 6))).timestamp
        = 43790 := by
  have hlen : ((rampReadings 4380).length : Int) = ((73 : Nat) : Int) * samplesPerAvg := by
    rw [rampReadings_length, samplesPerAvg_eq]; rfl
  obtain ⟨pre, s, r, hlast, hpre, hstep, hrun, hdue, hmean, _, hts⟩ :=
    window_mean_of_latest_samples (rampReadings 4380) 73 (by decide) hlen
  refine ⟨by decide, hlen, pre, s, r, hlast, hpre, hstep, hrun, hdue, hmean, ?_⟩
  have hl := getLast?_eq_readingAt (rampReadings 4380) (by rw [rampReadings_length]; decide)
  rw [rampReadings_length, readingAt_ramp 4380 4379 (by decide), hlast] at hl
  rw [hts, Option.some.inj hl]
  norm_num

/-- C3: for every tick sequence from the initial state, the `N`-th call of
`sampleVoltages` (`N ≥ 1`) enters the averaging branch if and only if `N` is a
multiple of `samplesPerAvg`, although the test is made on the wrapped cursor.
A call that does not enter it leaves the Average Ring unchanged; a call that
enters it writes an Average Ring entry: the `float` mean of the last
`samplesPerAvg` readings with the timestamp of this tick.  So the first `N`
ticks perform exactly `N / samplesPerAvg` window computations, and
`3 * totalSamples = 12960` ticks perform exactly
`3 * totalSamples / samplesPerAvg = 216`. -/
theorem window_iff_multiple (rs : List Reading) (N : Nat) (h1 : 1 ≤ N) (h2 : N ≤ rs.length) :
    ∃ pre, runTicks initState (rs.take (N - 1)) = some pre ∧
      (windowDue pre.currentSample = true ↔ samplesPerAvg.toNat ∣ N) ∧
      (∀ r s', ¬ samplesPerAvg.toNat ∣ N → sampleVoltages pre r = some s' →
        s'.avgVoltage = pre.avgVoltage) ∧
      (samplesPerAvg.toNat ∣ N →
        ∃ r s', (rs.take N).getLast? = some r ∧ sampleVoltages pre r = some s' ∧
          runTicks initState (rs.take N) = some s' ∧
          s'.avgVoltage (Int.tmod (avgIndex pre.currentSample) (totalHours * 6))
            = ⟨fun ch => f32Mean (channelReadings ((rs.take N).drop (N - 60)) ch), r.now⟩) ∧
      windowCount initState (rs.take N) = N / samplesPerAvg.toNat ∧
      ((rs.length : Int) = 3 * totalSamples →
        (windowCount initState rs : Int) = Int.tdiv (3 * totalSamples) samplesPerAvg ∧
        windowCount initState rs = 216) := by
  have h60 : samplesPerAvg.toNat = 60 := by rw [samplesPerAvg_eq]; rfl
  obtain ⟨pre, hpre, hinv⟩ := runTicks_inv (rs.take (N - 1))
  obtain ⟨h0, _⟩ := hinv.cursor_bounds
  have hc := hinv.cursor
  have hlen : (rs.take (N - 1)).length = N - 1 := by
    rw [List.length_take]; omega
  have hlenN : (rs.take N).length = N := by
    rw [List.length_take]; omega
  rw [hlen] at hc
  have hiff : windowDue pre.currentSample = true ↔ samplesPerAvg.toNat ∣ N := by
    rw [windowDue_iff _ h0, h60]
    omega
  refine ⟨pre, hpre, hiff, ?_, ?_, ?_, ?_⟩
  · intro r s' hnd hs'
    apply sampleVoltages_no_window pre s' r _ hs'
    rw [← Bool.not_eq_true, hiff]
    exact hnd
  · intro hdvd
    rw [h60] at hdvd
    obtain ⟨m, hm⟩ := hdvd
    obtain ⟨pre', s', r, hlast, hr, hpre', hstep, hrun, _, hinv', _, hslot, _⟩ :=
      last_tick_of_window (rs.take N) m (by omega) (by omega)
    have hdl : (rs.take N).dropLast = rs.take (N - 1) := by
      rw [List.dropLast_eq_take, hlenN, List.take_take, Nat.min_eq_left (by omega)]
    rw [hdl, hpre] at hpre'
    injection hpre' with hpre'
    subst hpre'
    have hcont := window_slot_contents (rs.take N) s' m (by omega) (by omega) hinv'
    rw [hlenN] at hcont hr
    rw [← hr] at hcont
    refine ⟨r, s', hlast, hstep, hrun, ?_⟩
    rw [hslot, hcont]
  · have hcount := windowCount_from (rs.take N) [] initState runInv_init
    rw [hcount, hlenN, h60]
    simp
  · intro hfull
    rw [totalSamples_eq] at hfull
    have hcount := windowCount_from rs [] initState runInv_init
    have hl : rs.length = 12960 := by omega
    rw [hcount, hl]
    exact ⟨by decide, by decide⟩

/-- Three full wraps of the raw ring: 12960 ticks, 216 window computations,
the last of them at tick 12960, which writes an entry with its timestamp
129590. -/
theorem window_iff_multiple_witness :
    1 ≤ 12960 ∧ 12960 ≤ (rampReadings 12960).length ∧
    windowCount initState (rampReadings 12960) = 216 ∧
    ∃ pre s', runTicks initState ((rampReadings 12960).take (12960 - 1)) = some pre ∧
      windowDue pre.currentSample = true ∧
      runTicks initState (rampReadings 12960) = some s' ∧
      (s'.avgVoltage (Int.tmod (avgIndex pre.currentSample) (totalHours * 6))).timestamp
        = 129590 := by
  have hle : 12960 ≤ (rampReadings 12960).length := by rw [rampReadings_length]
  have hlen := rampReadings_length 12960
  obtain ⟨pre, hpre, hiff, _, hwrite, _, hfull⟩ :=
    window_iff_multiple (rampReadings 12960) 12960 (by decide) hle
  have hdvd : samplesPerAvg.toNat ∣ 12960 := by rw [samplesPerAvg_eq]; decide
  obtain ⟨r, s', hlast, _, hrun, hentry⟩ := hwrite hdvd
  have htake : (rampReadings 12960).take 12960 = rampReadings 12960 :=
    List.take_of_length_le (by rw [hlen])
  rw [htake] at hlast hrun
  have hl := getLast?_eq_readingAt (rampReadings 12960) (by rw [hlen]; decide)
  rw [hlen, readingAt_ramp 12960 12959 (by decide), hlast] at hl
  refine ⟨by decide, hle, (hfull ?_).2, pre, s', hpre, hiff.2 hdvd, hrun, ?_⟩
  · rw [hlen, totalSamples_eq]; rfl
  · rw [hentry, Option.some.inj hl]
    norm_num

/-- C4: for every `m ≥ 1`, the tick `m * samplesPerAvg` (counted from the
initial state, over any number of raw-ring wraps) completes the `m`-th window,
and the slot index the code computes from the wrapped cursor,
`((cursor + 1) / samplesPerAvg - 1) % (totalHours * 6)`, equals
`(number of completed windows - 1) mod (totalHours * 6) = (m - 1) mod 72`; that
slot receives the window's `float` average and no other Average Ring slot
changes. -/
theorem window_slot_index (rs : List Reading) (m : Nat) (hm : 1 ≤ m)
    (hlen : (rs.length : Int) = (m : Int) * samplesPerAvg) :
    ∃ pre s r, rs.getLast? = some r ∧
      runTicks initState rs.dropLast = some pre ∧ sampleVoltages pre r = some s ∧
      windowCount initState rs = m ∧
      Int.tmod (Int.tdiv (pre.currentSample + 1) samplesPerAvg - 1) (totalHours * 6)
        = ((windowCount initState rs : Int) - 1) % (totalHours * 6) ∧
      Int.tmod (Int.tdiv (pre.currentSample + 1) samplesPerAvg - 1) (totalHours * 6)
        = ((m : Int) - 1) % 72 ∧
      s.avgVoltage (((m : Int) - 1) % 72)
        = ⟨fun ch => f32Mean (channelReadings (rs.drop (rs.length - 60)) ch), r.now⟩ ∧
      (∀ k : Int, k ≠ ((m : Int) - 1) % 72 → s.avgVoltage k = pre.avgVoltage k) := by
  rw [samplesPerAvg_eq] at hlen
  have hl : rs.length = 60 * m := by omega
  obtain ⟨pre, s, r, hlast, hr, hpre, hstep, _, _, hinv, _, hslot, hframe⟩ :=
    last_tick_of_window rs m hm hl
  have hcount : windowCount initState rs = m := by
    rw [windowCount_from rs [] initState runInv_init, hl]
    simp
  have hcont := window_slot_contents rs s m hm hl hinv
  rw [← hr] at hcont
  refine ⟨pre, s, r, hlast, hpre, hstep, hcount, ?_, hslot, hcont, hframe⟩
  rw [hcount, avgCapacity_eq]
  exact hslot

/-- The 145th window (tick 8700), completed after two wraps of the raw ring
and two wraps of the Average Ring, goes to slot 0. -/
theorem window_slot_index_witness :
    1 ≤ 145 ∧ ((rampReadings 8700).length : Int) = ((145 : Nat) : Int) * samplesPerAvg ∧
    ∃ pre s r, (rampReadings 8700).getLast? = some r ∧
      runTicks initState (rampReadings 8700).dropLast = some pre ∧
      sampleVoltages pre r = some s ∧
      windowCount initState (rampReadings 8700) = 145 ∧
      Int.tmod (Int.tdiv (pre.currentSample + 1) samplesPerAvg - 1) (totalHours * 6) = 0 := by
  have hlen : ((rampReadings 8700).length : Int) = ((145 : Nat) : Int) * samplesPerAvg := by
    rw [rampReadings_length, samplesPerAvg_eq]; rfl
  obtain ⟨pre, s, r, hlast, hpre, hstep, hcount, _, hslot, _⟩ :=
    window_slot_index (rampReadings 8700) 145 (by decide) hlen
  exact ⟨by decide, hlen, pre, s, r, hlast, hpre, hstep, hcount, by rw [hslot]; decide⟩

/-- C7 as stated fails: base 0 is inside the ring and offset -4321 keeps the sum
inside the 32-bit range, yet `getRingBufferIndex 0 (-4321)` is `-1`. -/
theorem getRingBufferIndex_negative :
    (0 : Int) ≤ 0 ∧ (0 : Int) < totalSamples ∧
    -2 ^ 31 ≤ (0 : Int) + (-4321) + totalSamples ∧ (0 : Int) + (-4321) + totalSamples < 2 ^ 31 ∧
    getRingBufferIndex 0 (-4321) = -1 ∧
    ¬ (0 ≤ getRingBufferIndex 0 (-4321) ∧ getRingBufferIndex 0 (-4321) < totalSamples) := by
  decide

/-- C7 (amended): for every base in `[0, totalSamples)` and every offset (sum
inside the 32-bit range), `getRingBufferIndex base offset` is congruent to
`base + offset` modulo `totalSamples` and lies strictly between
`-totalSamples` and `totalSamples`; it is non-negative exactly when
`base + offset ≥ -totalSamples` or `base + offset` is a multiple of
`totalSamples`; so for `base + offset ≥ -totalSamples` it lies in
`[0, totalSamples)` and equals `(base + offset) mod totalSamples`. -/
theorem getRingBufferIndex_range (base offset : Int) (hb0 : 0 ≤ base) (_hb1 : base < totalSamples)
    (hlo : -2 ^ 31 ≤ base + offset + totalSamples) (hhi : base + offset + totalSamples < 2 ^ 31) :
    getRingBufferIndex base offset % totalSamples = (base + offset) % totalSamples ∧
    -totalSamples < getRingBufferIndex base offset ∧
    getRingBufferIndex base offset < totalSamples ∧
    (0 ≤ getRingBufferIndex base offset ↔
      (-totalSamples ≤ base + offset ∨ totalSamples ∣ base + offset)) ∧
    (-totalSamples ≤ base + offset →
      0 ≤ getRingBufferIndex base offset ∧ getRingBufferIndex base offset < totalSamples ∧
      getRingBufferIndex base offset = (base + offset) % totalSamples) ∧
    (-totalSamples ≤ offset →
      0 ≤ getRingBufferIndex base offset ∧ getRingBufferIndex base offset < totalSamples) := by
  unfold getRingBufferIndex
  rw [totalSamples_eq] at *
  by_cases hneg : base + offset + 4320 < 0
  · rw [tmod_of_neg _ _ hneg (by decide)]
    omega
  · rw [Int.tmod_eq_emod (by omega) (by decide)]
    omega

/-- The wrap boundary: base 0, offset -1 gives the last slot, 4319. -/
theorem getRingBufferIndex_range_witness :
    (0 : Int) ≤ 0 ∧ (0 : Int) < totalSamples ∧
    -2 ^ 31 ≤ (0 : Int) + (-1) + totalSamples ∧ (0 : Int) + (-1) + totalSamples < 2 ^ 31 ∧
    getRingBufferIndex 0 (-1) = 4319 ∧
    0 ≤ getRingBufferIndex 0 (-1) ∧ getRingBufferIndex 0 (-1) < totalSamples := by
  have h := getRingBufferIndex_range 0 (-1) (by decide) (by decide) (by decide) (by decide)
  exact ⟨by decide, by decide, by decide, by decide, by decide, (h.2.2.2.2.1 (by decide)).1,
    (h.2.2.2.2.1 (by decide)).2.1⟩

/-- C8: for every `N ≥ 1`, after `N` ticks from the initial state the raw
index returned by `getLatestIndices` is `(N - 1) mod totalSamples`, it is inside
the raw ring, and that slot holds the four readings and the timestamp of the
`N`-th tick; when the cursor has just wrapped to 0 the index is
`totalSamples - 1`, and `getRingBufferIndex 0 (-1) = 4319`. -/
theorem latest_raw_index (rs : List Reading) (hN : 1 ≤ rs.length) :
    ∃ s, runTicks initState rs = some s ∧
      (getLatestIndices s).1 = getRingBufferIndex s.currentSample (-1) ∧
      (getLatestIndices s).1 = ((rs.length : Int) - 1) % totalSamples ∧
      0 ≤ (getLatestIndices s).1 ∧ (getLatestIndices s).1 < totalSamples ∧
      (∀ r, rs.getLast? = some r →
        s.voltageData (getLatestIndices s).1 = ⟨r.voltage, r.now⟩) ∧
      (s.currentSample = 0 → (getLatestIndices s).1 = totalSamples - 1) ∧
      getRingBufferIndex 0 (-1) = 4319 := by
  obtain ⟨s, hs, hinv⟩ := runTicks_inv rs
  obtain ⟨h0, h1⟩ := hinv.cursor_bounds
  have hc := hinv.cursor
  have hidx := latestSampleIdx_eq s h0 h1
  have hval : (getLatestIndices s).1 = (((rs.length - 1 : Nat) : Int)) % 4320 := by
    rw [hidx]; omega
  refine ⟨s, hs, rfl, ?_, ?_, ?_, ?_, ?_, by decide⟩
  · rw [hidx, totalSamples_eq]; omega
  · rw [hidx]; omega
  · rw [hidx, totalSamples_eq]; omega
  · intro r hr
    rw [getLast?_eq_readingAt rs (by omega)] at hr
    injection hr with hr
    rw [hval, hinv.raw (rs.length - 1) (by omega) (by omega), hr]
  · intro hz
    rw [hidx, hz, totalSamples_eq]; decide

/-- One full wrap: after 4320 ticks the cursor is back at 0 and the latest raw
index is 4319, holding the 4320th reading. -/
theorem latest_raw_index_witness :
    1 ≤ (rampReadings 4320).length ∧
    ∃ s, runTicks initState (rampReadings 4320) = some s ∧
      (getLatestIndices s).1 = 4319 ∧
      s.voltageData (getLatestIndices s).1
        = ⟨![F32.finite 4320, F32.finite 0, F32.finite 0, F32.finite 0], 43190⟩ := by
  have hlen : 1 ≤ (rampReadings 4320).length := by rw [rampReadings_length]; decide
  obtain ⟨s, hs, _, hidx, _, _, hslot, _, _⟩ := latest_raw_index (rampReadings 4320) hlen
  refine ⟨hlen, s, hs, ?_, ?_⟩
  · rw [hidx, rampReadings_length, totalSamples_eq]; decide
  · have hl := getLast?_eq_readingAt (rampReadings 4320) hlen
    rw [rampReadings_length, readingAt_ramp 4320 4319 (by decide)] at hl
    rw [hslot _ hl]
    norm_num

/-- C9: the cursor `currentSample` starts at 0; from every state whose cursor
`c` is in `[0, totalSamples)` a call of `sampleVoltages` succeeds and leaves
the cursor at `(c + 1) mod totalSamples`, in the averaging branch and outside
it alike; hence after `N` ticks from the initial state the cursor is
`N mod totalSamples`, which is in `[0, totalSamples)`. -/
theorem cursor_invariant (s : State) (r : Reading) (rs : List Reading)
    (h0 : 0 ≤ s.currentSample) (h1 : s.currentSample < totalSamples) :
    initState.currentSample = 0 ∧
    (∃ s', sampleVoltages s r = some s' ∧
      s'.currentSample = (s.currentSample + 1) % totalSamples ∧
      0 ≤ s'.currentSample ∧ s'.currentSample < totalSamples) ∧
    (∃ t, runTicks initState rs = some t ∧
      t.currentSample = (rs.length : Int) % totalSamples ∧
      0 ≤ t.currentSample ∧ t.currentSample < totalSamples) := by
  rw [totalSamples_eq] at *
  refine ⟨rfl, ⟨_, sampleVoltages_eq s r h0 h1, rfl, ?_, ?_⟩, ?_⟩
  · dsimp only; omega
  · dsimp only; omega
  · obtain ⟨t, ht, hinv⟩ := runTicks_inv rs
    obtain ⟨b0, b1⟩ := hinv.cursor_bounds
    exact ⟨t, ht, hinv.cursor, b0, b1⟩

/-- A step from the last slot of the ring (cursor 4319, where a window also
completes) wraps the cursor to 0; 4321 ticks leave the cursor at 1. -/
theorem cursor_invariant_witness :
    (0 : Int) ≤ 4319 ∧ (4319 : Int) < totalSamples ∧
    (∃ s', sampleVoltages { initState with currentSample := 4319 } ⟨fun _ => F32.finite 1, 7⟩ = some s' ∧
      s'.currentSample = 0) ∧
    (∃ t, runTicks initState (rampReadings 4321) = some t ∧ t.currentSample = 1) := by
  obtain ⟨_, ⟨s', hs', hc, _⟩, ⟨t, ht, htc, _⟩⟩ :=
    cursor_invariant { initState with currentSample := 4319 } ⟨fun _ => F32.finite 1, 7⟩
      (rampReadings 4321) (by decide) (by decide)
  refine ⟨by decide, by decide, ⟨s', hs', ?_⟩, ⟨t, ht, ?_⟩⟩
  · rw [hc, totalSamples_eq]; decide
  · rw [htc, rampReadings_length, totalSamples_eq]; decide

/-- C10: in every state reachable from the initial state by ticks the next
call of `sampleVoltages` makes only in-bounds array accesses (it succeeds in
the bounds-checked model): the raw write index `currentSample` is in
`[0, totalSamples)`; when the averaging branch is taken, each of the
`samplesPerAvg` read indices is computed from a non-negative
pre-normalisation value, equals `currentSample - 59 + i` and is in
`[0, totalSamples)`; and the average write index is in `[0, totalHours * 6)`. -/
theorem accesses_in_bounds (rs : List Reading) (r : Reading) :
    ∃ s, runTicks initState rs = some s ∧
      (0 ≤ s.currentSample ∧ s.currentSample < totalSamples) ∧
      (windowDue s.currentSample = true →
        (∀ i : Int, 0 ≤ i → i < samplesPerAvg →
          0 ≤ s.currentSample + 1 - samplesPerAvg + i ∧
          windowReadIndex s.currentSample i = s.currentSample - (samplesPerAvg - 1) + i ∧
          0 ≤ windowReadIndex s.currentSample i ∧
          windowReadIndex s.currentSample i < totalSamples) ∧
        0 ≤ Int.tmod (avgIndex s.currentSample) (totalHours * 6) ∧
        Int.tmod (avgIndex s.currentSample) (totalHours * 6) < totalHours * 6) ∧
      ∃ s', sampleVoltages s r = some s' := by
  obtain ⟨s, hs, hinv⟩ := runTicks_inv rs
  obtain ⟨h0, h1⟩ := hinv.cursor_bounds
  refine ⟨s, hs, ⟨h0, by rw [totalSamples_eq]; exact h1⟩, ?_, _, sampleVoltages_eq s r h0 h1⟩
  intro hdue
  rw [windowDue_iff _ h0] at hdue
  have h59 : 59 ≤ s.currentSample := by omega
  refine ⟨?_, ?_, ?_⟩
  · intro i hi0 hi1
    rw [samplesPerAvg_eq] at hi1
    rw [windowReadIndex_eq _ i h59 h1 hi0 hi1, samplesPerAvg_eq, totalSamples_eq]
    omega
  · rw [avgIndex_of_nonneg _ h0, avgCapacity_eq, Int.tmod_eq_emod (by omega) (by decide)]
    omega
  · rw [avgIndex_of_nonneg _ h0, avgCapacity_eq, Int.tmod_eq_emod (by omega) (by decide)]
    omega

/-- C5 (the code departs from the claim): for every `N` with `1 ≤ N ≤ 59`,
after `N` ticks from the initial state no window has been computed and
Average Ring slot 0 is still the zeroed entry, yet `getLatestIndices` reports
average index 0, not the "no average yet" value -1. -/
theorem latest_avg_index_before_first_window (rs : List Reading) (h1 : 1 ≤ rs.length)
    (h2 : rs.length ≤ 59) :
    ∃ s, runTicks initState rs = some s ∧
      (getLatestIndices s).2 = 0 ∧ (getLatestIndices s).2 ≠ -1 ∧
      windowCount initState rs = 0 ∧ s.avgVoltage 0 = ⟨fun _ => F32.finite 0, 0⟩ := by
  obtain ⟨s, hs, hinv⟩ := runTicks_inv rs
  obtain ⟨b0, b1⟩ := hinv.cursor_bounds
  have hc := hinv.cursor
  have hidx : (getLatestIndices s).2 = 0 := by
    rw [latestAvgIdx_eq s b0 b1, if_neg (by omega)]
    omega
  refine ⟨s, hs, hidx, by rw [hidx]; decide, ?_, hinv.fresh 0 (by omega)⟩
  rw [windowCount_from rs [] initState runInv_init]
  simp only [List.length_nil, Nat.zero_add, Nat.zero_div, Nat.sub_zero]
  omega

/-- After a single tick `getLatestIndices` already reports average index 0. -/
theorem latest_avg_index_before_first_window_witness :
    1 ≤ (rampReadings 1).length ∧ (rampReadings 1).length ≤ 59 ∧
    ∃ s, runTicks initState (rampReadings 1) = some s ∧
      (getLatestIndices s).2 = 0 ∧ (getLatestIndices s).2 ≠ -1 ∧
      windowCount initState (rampReadings 1) = 0 ∧ s.avgVoltage 0 = ⟨fun _ => F32.finite 0, 0⟩ :=
  ⟨by rw [rampReadings_length], by rw [rampReadings_length]; decide,
   latest_avg_index_before_first_window (rampReadings 1) (by rw [rampReadings_length])
     (by rw [rampReadings_length]; decide)⟩

/-- C6 (the code departs from the claim): for every `N ≥ samplesPerAvg`, after
`N` ticks from the initial state `getLatestIndices` reports -1 when
`N mod totalSamples = 0` and `((N mod totalSamples) - 1) / samplesPerAvg`
otherwise.  This is the slot of the most recently completed average,
`(N / samplesPerAvg - 1) mod 72`, only when `N` is a multiple of
`samplesPerAvg` and not of `totalSamples`; during the first pass of the ring,
between two window completions, it designates a slot that is still the zeroed
entry. -/
theorem latest_avg_index_value (rs : List Reading) (hN : 60 ≤ rs.length) :
    ∃ s, runTicks initState rs = some s ∧
      (getLatestIndices s).2
        = (if (rs.length : Int) % 4320 = 0 then -1 else ((rs.length : Int) % 4320 - 1) / 60) ∧
      ((getLatestIndices s).2 = ((rs.length : Int) / 60 - 1) % 72 ↔
        (rs.length % 60 = 0 ∧ rs.length % 4320 ≠ 0)) ∧
      (rs.length % 4320 = 0 → (getLatestIndices s).2 = -1) ∧
      (rs.length < 4320 → rs.length % 60 ≠ 0 →
        (getLatestIndices s).2 = (rs.length : Int) / 60 ∧
        s.avgVoltage (getLatestIndices s).2 = ⟨fun _ => F32.finite 0, 0⟩) := by
  obtain ⟨s, hs, hinv⟩ := runTicks_inv rs
  obtain ⟨b0, b1⟩ := hinv.cursor_bounds
  have hc := hinv.cursor
  have hidx := latestAvgIdx_eq s b0 b1
  rw [hc] at hidx
  refine ⟨s, hs, hidx, ?_, ?_, ?_⟩
  · rw [hidx]
    split_ifs with hz <;> omega
  · intro hz
    rw [hidx, if_pos (by omega)]
  · intro hlt hnd
    have hv : (getLatestIndices s).2 = (rs.length : Int) / 60 := by
      rw [hidx, if_neg (by omega)]
      omega
    refine ⟨hv, ?_⟩
    rw [hv]
    exact hinv.fresh _ (le_refl _)

/-- After 61 ticks one window has completed (slot 0), yet `getLatestIndices`
reports slot 1, which is still the zeroed entry; after 4320 ticks, with 72
windows completed, it reports -1. -/
theorem latest_avg_index_value_witness :
    60 ≤ (rampReadings 61).length ∧
    (∃ s, runTicks initState (rampReadings 61) = some s ∧
      (getLatestIndices s).2 = 1 ∧ s.avgVoltage 1 = ⟨fun _ => F32.finite 0, 0⟩ ∧
      windowCount initState (rampReadings 61) = 1) ∧
    (∃ s, runTicks initState (rampReadings 4320) = some s ∧ (getLatestIndices s).2 = -1 ∧
      windowCount initState (rampReadings 4320) = 72) := by
  have hlen : 60 ≤ (rampReadings 61).length := by rw [rampReadings_length]; decide
  have hlen2 : 60 ≤ (rampReadings 4320).length := by rw [rampReadings_length]; decide
  obtain ⟨s, hs, _, _, _, hfresh⟩ := latest_avg_index_value (rampReadings 61) hlen
  obtain ⟨t, ht, _, _, hwrap, _⟩ := latest_avg_index_value (rampReadings 4320) hlen2
  have h61 := hfresh (by rw [rampReadings_length]; decide) (by rw [rampReadings_length]; decide)
  rw [rampReadings_length] at h61
  have e : ((61 : Nat) : Int) / 60 = 1 := by decide
  rw [e] at h61
  refine ⟨hlen, ⟨s, hs, h61.1, ?_, ?_⟩, ⟨t, ht, hwrap (by rw [rampReadings_length]), ?_⟩⟩
  · rw [← h61.1]; exact h61.2
  · rw [windowCount_from _ [] initState runInv_init, rampReadings_length]; rfl
  · rw [windowCount_from _ [] initState runInv_init, rampReadings_length]; rfl

end VoltageGraph
